import Mathlib

/-!
Shallow embedding of `src/script.js` (MapApp): pin store, validation,
persistence and presentation-sync operations, with proofs about them.
-/

namespace MapApp

/-- A pin record as held in `this.pins` (the Leaflet `marker` handle is an
external view object and is not part of the data model; `createdAt` and
`updatedAt` are ISO-8601 timestamp strings in the source, modelled as
millisecond epoch numbers, which `new Date(...)` comparison makes order-
equivalent). -/
structure Pin where
  id : String
  lat : Float
  lng : Float
  title : String
  description : String
  createdAt : Nat
  updatedAt : Option Nat

/-- Models JavaScript `String.prototype.trim`: strip whitespace from both
ends (ASCII whitespace; the JS set also has rare Unicode spaces). -/
def jsTrim (s : String) : String :=
  ⟨((s.data.dropWhile Char.isWhitespace).reverse.dropWhile Char.isWhitespace).reverse⟩

/-- Models `validateInput` (script.js:314-328): reject when the trimmed
title is empty (`!data.title.trim()`), the raw title is over 50
characters, or the description is over 200 characters. -/
def validateInput (title description : String) : Bool :=
  if jsTrim title = "" then false
  else if title.length > 50 then false
  else if description.length > 200 then false
  else true

/-! ## The pin store

`this.pins` is a JS `Map` keyed by pin id.  A `Map` iterates its values in
insertion order, `Map.set` on a present key keeps the entry's position, and
`Map.delete` removes it; so the store is modelled as a `List Pin` in
insertion order with id-keyed access. -/

/-- `this.pins.get(id)`. -/
def findPin (s : List Pin) (pid : String) : Option Pin :=
  s.find? (fun q => q.id = pid)

/-- `this.pins.set(p.id, p)`: replace in place when the key is present
(a JS `Map` keeps the original insertion position), append otherwise. -/
def storeSet (s : List Pin) (p : Pin) : List Pin :=
  if s.any (fun q => q.id = p.id) then
    s.map (fun q => if q.id = p.id then p else q)
  else s ++ [p]

/-- `this.pins.delete(pid)`. -/
def removePin (s : List Pin) (pid : String) : List Pin :=
  s.filter (fun q => ¬ q.id = pid)

/-- A pin is "confirmed" when its title is non-empty: the truthiness test
`pin.title` used at script.js:250 and script.js:296. -/
def isConfirmed (p : Pin) : Bool :=
  ¬ p.title = ""

/-- The plain record written to storage by `savePinsToStorage`
(script.js:208-216): all data fields, the `marker` view handle dropped. -/
structure StoredPin where
  id : String
  lat : Float
  lng : Float
  title : String
  description : String
  createdAt : Nat
  updatedAt : Option Nat

/-- The field projection in `savePinsToStorage` (script.js:208-216). -/
def storedOfPin (p : Pin) : StoredPin :=
  { id := p.id, lat := p.lat, lng := p.lng, title := p.title
    description := p.description, createdAt := p.createdAt
    updatedAt := p.updatedAt }

/-- `addPin(lat, lng, data)` with `data` present (the load-from-storage
path, script.js:39-43): `this.pins.set(pinId, { ...data, marker })`. -/
def pinOfStored (d : StoredPin) : Pin :=
  { id := d.id, lat := d.lat, lng := d.lng, title := d.title
    description := d.description, createdAt := d.createdAt
    updatedAt := d.updatedAt }

/-- `savePinsToStorage` (script.js:207-224): serializes ALL pins of the
store — there is no filter on the title, so drafts are included. -/
def savePinsToStorage (s : List Pin) : List StoredPin :=
  s.map storedOfPin

/-- `addPin(lat, lng)` with no data (the map-click path, script.js:44-57):
inserts a draft pin with empty title and description.  No persistence
happens on this path. -/
def addPinDraft (s : List Pin) (pid : String) (lat lng : Float) (now : Nat) :
    List Pin :=
  storeSet s { id := pid, lat := lat, lng := lng, title := ""
               description := "", createdAt := now, updatedAt := none }

/-- `savePin(formData)` (script.js:141-162) together with the write it
performs: updates title, description and `updatedAt` of the pin named by
`currentPinId`, keeping every other field, then persists the whole store.
The early returns on a missing `currentPinId` or a missing pin write
nothing and persist nothing (`none` in the second component). -/
def savePinFull (s : List Pin) (currentPinId : Option String)
    (title description : String) (now : Nat) :
    List Pin × Option (List StoredPin) :=
  match currentPinId with
  | none => (s, none)
  | some pid =>
    match findPin s pid with
    | none => (s, none)
    | some pinData =>
      let s' := storeSet s { pinData with title := title,
                                          description := description,
                                          updatedAt := some now }
      (s', some (savePinsToStorage s'))

/-- The store after `savePin` (ignoring the persisted payload). -/
def savePin (s : List Pin) (currentPinId : Option String)
    (title description : String) (now : Nat) : List Pin :=
  (savePinFull s currentPinId title description now).1

inductive ConfirmError where
  | validationError
deriving DecidableEq

/-- The confirm operation of the spec: the form-submit path
(script.js:361-371) runs `validateInput` and only then `savePin`.  On
validation failure nothing is written (`ValidationError`). -/
def confirm (s : List Pin) (pid : String) (title description : String)
    (now : Nat) : Except ConfirmError (List Pin) :=
  if validateInput title description then
    .ok (savePin s (some pid) title description now)
  else
    .error .validationError

inductive DeleteResult where
  | notFound
  | canceled
  | deleted
deriving DecidableEq

/-- `deletePin(pinId)` (script.js:164-177) with its persisted payload.
A missing id early-returns — the `NotFoundError` no-op of the spec's error
taxonomy.  `userOk` is the outcome of the synchronous `confirm(...)`
dialog (the user-in-the-loop gate of spec §5); on decline nothing
changes. -/
def deletePinFull (s : List Pin) (pid : String) (userOk : Bool) :
    DeleteResult × List Pin × Option (List StoredPin) :=
  match findPin s pid with
  | none => (.notFound, s, none)
  | some _ =>
    if userOk then
      let s' := removePin s pid
      (.deleted, s', some (savePinsToStorage s'))
    else (.canceled, s, none)

/-- `clearAllPins()` (script.js:179-195) with its persisted payload: a
no-op on an empty store, otherwise (after the confirmation dialog)
empties the store and persists the empty array. -/
def clearAllPinsFull (s : List Pin) (userOk : Bool) :
    List Pin × Option (List StoredPin) :=
  if s.isEmpty then (s, none)
  else if userOk then ([], some (savePinsToStorage []))
  else (s, none)

/-! ## Loading from storage -/

/-- What `localStorage.getItem('mapPins')` + `JSON.parse` can present to
`loadPinsFromStorage`: no prior data (`getItem` returned null or an empty
string), data that makes `JSON.parse` throw (or parses to a non-array, so
`forEach` throws at once), or a parsed array whose elements are either
well-formed pin records or malformed values (`none`) whose field access
inside `addPin` throws. -/
inductive StorageSlot where
  | empty
  | unparseable
  | parsed (items : List (Option StoredPin))

inductive LoadOutcome where
  | okEmpty
  | okLoaded
  | storageError
deriving DecidableEq

/-- The `pinsArray.forEach(pinData => this.addPin(...))` loop inside the
`try` of `loadPinsFromStorage` (script.js:231-233): pins added so far stay
in the store when a later element throws. -/
def loadLoop (s : List Pin) : List (Option StoredPin) → List Pin × LoadOutcome
  | [] => (s, .okLoaded)
  | some d :: rest => loadLoop (storeSet s (pinOfStored d)) rest
  | none :: _ => (s, .storageError)

/-- `loadPinsFromStorage()` (script.js:226-239).  Every exception is
caught by the surrounding `try`/`catch`, which logs and shows a
notification (`StorageError`): the process never crashes. -/
def loadPinsFromStorage (s : List Pin) : StorageSlot → List Pin × LoadOutcome
  | .empty => (s, .okEmpty)
  | .unparseable => (s, .storageError)
  | .parsed items => loadLoop s items

/-! ## The sidebar list (Presentation Sync) -/

/-- One step of a stable descending insertion sort on `createdAt`.
`Array.prototype.sort` with comparator
`(a, b) => new Date(b.createdAt) - new Date(a.createdAt)` (script.js:251)
is a stable sort (ES2019) ordering by `createdAt` descending; a stable
insertion sort computes the same list. -/
def insertPinDesc (p : Pin) : List Pin → List Pin
  | [] => [p]
  | q :: qs =>
    if q.createdAt ≤ p.createdAt then p :: q :: qs
    else q :: insertPinDesc p qs

/-- The stable descending-by-`createdAt` sort of script.js:251. -/
def sortPinsDesc : List Pin → List Pin
  | [] => []
  | p :: ps => insertPinDesc p (sortPinsDesc ps)

/-- The sidebar list built by `updateSidebar` (script.js:249-251):
`Array.from(this.pins.values()).filter(pin => pin.title).sort(...)` —
the spec's `list()`. -/
def listPins (s : List Pin) : List Pin :=
  sortPinsDesc (s.filter isConfirmed)

/-- `updatePinCount` (script.js:295-298): the number of pins with a
truthy (non-empty) title — the spec's `count()`. -/
def pinCount (s : List Pin) : Nat :=
  (s.filter isConfirmed).length

/-! ## Search (script.js:273-293) over the rendered rows -/

/-- Models `String.prototype.toLowerCase` (ASCII case folding). -/
def jsToLower (s : String) : String :=
  ⟨s.data.map Char.toLower⟩

/-- `listStartsWith pat s`: `pat` is a prefix of `s`. -/
def listStartsWith : List Char → List Char → Bool
  | [], _ => true
  | _ :: _, [] => false
  | p :: ps, c :: cs => p = c && listStartsWith ps cs

/-- Models JavaScript `s.includes(pat)`: `pat` occurs contiguously in
`s`. -/
def containsSub (s pat : String) : Bool :=
  go pat.data s.data
where
  go (pat : List Char) : List Char → Bool
    | [] => pat.isEmpty
    | c :: cs => listStartsWith pat (c :: cs) || go pat cs

/-- The description text rendered into a sidebar row's `<p>` element
(script.js:256): the description truncated to its first 50 characters
with a `'...'` suffix when longer, or the placeholder `'説明なし'` when
empty.  This — not the raw description — is what `searchPins` matches
against. -/
def renderDesc (p : Pin) : String :=
  if ¬ p.description = "" then
    ⟨p.description.data.take 50⟩ ++ (if p.description.length > 50 then "..." else "")
  else "説明なし"

/-- The match predicate of `searchPins` (script.js:277-286): the
lowercased-and-trimmed search term occurs in the lowercased rendered
title or the lowercased rendered description. -/
def rowMatches (term : String) (p : Pin) : Bool :=
  let t := jsTrim (jsToLower term)
  containsSub (jsToLower p.title) t || containsSub (jsToLower (renderDesc p)) t

/-- `searchPins()` (script.js:273-293): the sidebar rows left visible,
i.e. the rendered (confirmed, sorted) rows whose text matches.  (The
special-case loop for an empty term at script.js:288-292 is subsumed:
`includes('')` is already true for every row.) -/
def searchPins (s : List Pin) (term : String) : List Pin :=
  (listPins s).filter (rowMatches term)

/-! ## Identifier generation (script.js:30-32) -/

/-- Little-endian base-10 digits computed with explicit fuel, mirroring
the successive `% 10` / `/ 10` steps of decimal printing. -/
def digitsRev (fuel n : Nat) : List Nat :=
  match fuel with
  | 0 => []
  | fuel + 1 => if n = 0 then [] else n % 10 :: digitsRev fuel (n / 10)

/-- The decimal string JavaScript produces when a number is concatenated
into a string (`'pin_' + Date.now()` coerces `Date.now()` to decimal). -/
def jsNumToString (n : Nat) : String :=
  if n = 0 then "0" else ⟨((digitsRev n n).map Nat.digitChar).reverse⟩

/-- `generateUniqueId` (script.js:30-32):
`'pin_' + Date.now() + '_' + Math.random().toString(36).substr(2, 9)`.
`now` is the observed `Date.now()` value; `rand` is the observed random
base-36 suffix (1 to 9 characters from `0-9a-z`). -/
def generateUniqueId (now : Nat) (rand : String) : String :=
  "pin_" ++ jsNumToString now ++ "_" ++ rand

/-! ## Displayed pin count (for the relation between mutations and
`updatePinCount`) -/

/-- The store together with the count shown in the `#pinCount` element. -/
structure AppState where
  pins : List Pin
  shownCount : Nat

/-- The map-click path: `addPin(lat, lng)` with no data (script.js:44-57)
does not call `updatePinCount` (the confirmed count is unchanged by a
draft anyway). -/
def appAddDraft (st : AppState) (pid : String) (lat lng : Float) (now : Nat) :
    AppState :=
  { pins := addPinDraft st.pins pid lat lng now, shownCount := st.shownCount }

/-- The form-submit path (script.js:361-371): `validateInput` then
`savePin`.  `savePin` (script.js:141-162) calls `savePinsToStorage`,
`updateSidebar`, `hideCommentModal` and `showNotification` — but not
`updatePinCount`, so the displayed count is left as it was. -/
def appConfirm (st : AppState) (pid : String) (title description : String)
    (now : Nat) : AppState :=
  if validateInput title description then
    { pins := savePin st.pins (some pid) title description now
      shownCount := st.shownCount }
  else st

/-- `deletePin` (script.js:164-177) does call `updatePinCount` after a
confirmed deletion. -/
def appDeletePin (st : AppState) (pid : String) (userOk : Bool) : AppState :=
  let r := deletePinFull st.pins pid userOk
  match r.1 with
  | .deleted => { pins := r.2.1, shownCount := pinCount r.2.1 }
  | _ => st

/-- `addPin(lat, lng)` with no data and what it persists: nothing — the
draft branch of `addPin` (script.js:44-57) contains no
`savePinsToStorage` call. -/
def addPinDraftFull (s : List Pin) (pid : String) (lat lng : Float) (now : Nat) :
    List Pin × Option (List StoredPin) :=
  (addPinDraft s pid lat lng now, none)

/-- The value denoted by a little-endian digit list. -/
def valRev : List Nat → Nat
  | [] => 0
  | d :: ds => d + 10 * valRev ds

/-! ## Concrete pins used by counterexamples and witnesses -/

def c1Pin : Pin :=
  { id := "p1", lat := 35.0, lng := 139.0, title := "Old", description := "old"
    createdAt := 3, updatedAt := none }

def c2Draft : Pin :=
  { id := "d", lat := 3.0, lng := 4.0, title := "", description := ""
    createdAt := 1, updatedAt := none }

def c2Confirmed : Pin :=
  { id := "c", lat := 5.0, lng := 6.0, title := "X", description := ""
    createdAt := 2, updatedAt := none }

def c4PinB : Pin :=
  { id := "b", lat := 1.0, lng := 2.0, title := "B", description := ""
    createdAt := 5, updatedAt := none }

def c4PinA : Pin :=
  { id := "a", lat := 1.0, lng := 2.0, title := "A", description := ""
    createdAt := 5, updatedAt := none }

def c4PinC : Pin :=
  { id := "c", lat := 1.0, lng := 2.0, title := "C", description := ""
    createdAt := 5, updatedAt := none }

def c5Pin : Pin :=
  { id := "a", lat := 35.0, lng := 139.0, title := "Cafe", description := ""
    createdAt := 5, updatedAt := none }

def c6Pin1 : Pin :=
  { id := "x", lat := 35.0, lng := 139.0, title := "One", description := "first"
    createdAt := 1, updatedAt := some 2 }

def c6Pin2 : Pin :=
  { id := "y", lat := 36.0, lng := 140.0, title := "Two", description := ""
    createdAt := 3, updatedAt := none }

def c7Record : StoredPin :=
  { id := "g", lat := 35.0, lng := 139.0, title := "Good", description := ""
    createdAt := 1, updatedAt := none }

/-- A 53-character description whose only occurrence of `"xyz"` starts
after the 50-character truncation point of the rendered row. -/
def c8LongDesc : String :=
  "aaaaaaaaaaaaaaaaaaaaaaaaaaaaaaaaaaaaaaaaaaaaaaaaaaxyz"

def c8Pin : Pin :=
  { id := "s", lat := 0.0, lng := 0.0, title := "t", description := c8LongDesc
    createdAt := 1, updatedAt := none }

def c10Pin : Pin :=
  { id := "f", lat := 7.5, lng := 8.5, title := "T", description := "D"
    createdAt := 4, updatedAt := none }

/-! ## Store lemmas -/

theorem findPin_id {s : List Pin} {pid : String} {p0 : Pin}
    (h : findPin s pid = some p0) : p0.id = pid := by
  simpa using List.find?_some h

theorem mem_of_findPin {s : List Pin} {pid : String} {p0 : Pin}
    (h : findPin s pid = some p0) : p0 ∈ s :=
  List.mem_of_find?_eq_some h

theorem find?_map_replace (p : Pin) :
    ∀ s : List Pin, s.any (fun q => q.id = p.id) = true →
      (s.map (fun q => if q.id = p.id then p else q)).find?
        (fun q => q.id = p.id) = some p := by
  intro s
  induction s with
  | nil => simp
  | cons q qs ih =>
    intro hany
    by_cases hq : q.id = p.id
    · simp [hq]
    · have hany' : qs.any (fun q => q.id = p.id) = true := by
        simpa [hq] using hany
      simp only [List.map_cons, if_neg hq]
      rw [List.find?_cons_of_neg _ (by simpa using hq)]
      exact ih hany'

theorem find?_append_single (p : Pin) :
    ∀ s : List Pin, s.any (fun q => q.id = p.id) = false →
      (s ++ [p]).find? (fun q => q.id = p.id) = some p := by
  intro s
  induction s with
  | nil => simp
  | cons q qs ih =>
    intro hany
    have hq : ¬ q.id = p.id := by
      intro hc
      simp [hc] at hany
    have hany' : qs.any (fun q => q.id = p.id) = false := by
      simpa [hq] using hany
    rw [List.cons_append, List.find?_cons_of_neg _ (by simpa using hq)]
    exact ih hany'

theorem findPin_storeSet_self (s : List Pin) (p : Pin) :
    findPin (storeSet s p) p.id = some p := by
  unfold storeSet findPin
  by_cases hany : s.any (fun q => q.id = p.id) = true
  · rw [if_pos hany]
    exact find?_map_replace p s hany
  · rw [if_neg hany]
    exact find?_append_single p s (by simpa using hany)

theorem savePin_found {s : List Pin} {pid : String} (t d : String) (now : Nat)
    {p0 : Pin} (h : findPin s pid = some p0) :
    savePin s (some pid) t d now =
      storeSet s { p0 with title := t, description := d, updatedAt := some now } := by
  simp [savePin, savePinFull, h]

theorem storeSet_of_mem {s : List Pin} {p : Pin} {p0 : Pin}
    (hmem : p0 ∈ s) (hid : p0.id = p.id) :
    storeSet s p = s.map (fun q => if q.id = p.id then p else q) := by
  unfold storeSet
  rw [if_pos (List.any_eq_true.mpr ⟨p0, hmem, by simpa using hid⟩)]

/-! ## Sort lemmas -/

theorem insertPinDesc_eq (p : Pin) (l : List Pin) :
    insertPinDesc p l =
      l.takeWhile (fun q => p.createdAt < q.createdAt) ++
        p :: l.dropWhile (fun q => p.createdAt < q.createdAt) := by
  induction l with
  | nil => rfl
  | cons q qs ih =>
    by_cases hq : q.createdAt ≤ p.createdAt
    · have : ¬ p.createdAt < q.createdAt := by omega
      simp [insertPinDesc, hq, List.takeWhile_cons, List.dropWhile_cons, this]
    · have hlt : p.createdAt < q.createdAt := by omega
      simp [insertPinDesc, hq, List.takeWhile_cons, List.dropWhile_cons, hlt, ih]

theorem insertPinDesc_perm (p : Pin) (l : List Pin) :
    (insertPinDesc p l).Perm (p :: l) := by
  rw [insertPinDesc_eq]
  calc (l.takeWhile (fun q => p.createdAt < q.createdAt) ++
          p :: l.dropWhile (fun q => p.createdAt < q.createdAt)).Perm
        (p :: (l.takeWhile (fun q => p.createdAt < q.createdAt) ++
          l.dropWhile (fun q => p.createdAt < q.createdAt))) := List.perm_middle
    _ = p :: l := by rw [List.takeWhile_append_dropWhile]

theorem sortPinsDesc_perm (l : List Pin) : (sortPinsDesc l).Perm l := by
  induction l with
  | nil => exact List.Perm.refl _
  | cons p ps ih =>
    exact ((insertPinDesc_perm p (sortPinsDesc ps)).trans (ih.cons p))

theorem mem_insertPinDesc {x p : Pin} {l : List Pin}
    (h : x ∈ insertPinDesc p l) : x = p ∨ x ∈ l := by
  have := (insertPinDesc_perm p l).mem_iff.mp h
  simpa using this

theorem insertPinDesc_pairwise {p : Pin} {l : List Pin}
    (h : l.Pairwise (fun a b => b.createdAt ≤ a.createdAt)) :
    (insertPinDesc p l).Pairwise (fun a b => b.createdAt ≤ a.createdAt) := by
  induction l with
  | nil => simp [insertPinDesc]
  | cons q qs ih =>
    rcases List.pairwise_cons.mp h with ⟨hq, hqs⟩
    by_cases hle : q.createdAt ≤ p.createdAt
    · rw [insertPinDesc, if_pos hle]
      refine List.pairwise_cons.mpr ⟨?_, h⟩
      intro b hb
      rcases List.mem_cons.mp hb with rfl | hb
      · exact hle
      · exact le_trans (hq b hb) hle
    · rw [insertPinDesc, if_neg hle]
      refine List.pairwise_cons.mpr ⟨?_, ih hqs⟩
      intro b hb
      rcases mem_insertPinDesc hb with rfl | hb
      · omega
      · exact hq b hb

theorem sortPinsDesc_pairwise (l : List Pin) :
    (sortPinsDesc l).Pairwise (fun a b => b.createdAt ≤ a.createdAt) := by
  induction l with
  | nil => simp [sortPinsDesc]
  | cons p ps ih => exact insertPinDesc_pairwise ih

theorem filter_insertPinDesc (p : Pin) (l : List Pin) (t : Nat) :
    (insertPinDesc p l).filter (fun q => q.createdAt = t) =
      if p.createdAt = t then p :: l.filter (fun q => q.createdAt = t)
      else l.filter (fun q => q.createdAt = t) := by
  rw [insertPinDesc_eq, List.filter_append]
  by_cases hp : p.createdAt = t
  · have htake : (l.takeWhile (fun q => p.createdAt < q.createdAt)).filter
        (fun q => q.createdAt = t) = [] := by
      rw [List.filter_eq_nil_iff]
      intro a ha
      have := List.mem_takeWhile_imp ha
      simp only [decide_eq_true_eq] at this ⊢
      omega
    rw [if_pos hp]
    rw [htake, List.nil_append, List.filter_cons_of_pos (by simpa using hp)]
    congr 1
    conv_rhs => rw [← List.takeWhile_append_dropWhile
      (p := fun q => p.createdAt < q.createdAt) (l := l)]
    rw [List.filter_append, htake, List.nil_append]
  · rw [if_neg hp]
    rw [List.filter_cons_of_neg (by simpa using hp)]
    conv_rhs => rw [← List.takeWhile_append_dropWhile
      (p := fun q => p.createdAt < q.createdAt) (l := l)]
    rw [List.filter_append]

theorem sortPinsDesc_stable (l : List Pin) (t : Nat) :
    (sortPinsDesc l).filter (fun q => q.createdAt = t) =
      l.filter (fun q => q.createdAt = t) := by
  induction l with
  | nil => rfl
  | cons p ps ih =>
    rw [sortPinsDesc, filter_insertPinDesc]
    by_cases hp : p.createdAt = t
    · rw [if_pos hp, ih, List.filter_cons_of_pos (by simpa using hp)]
    · rw [if_neg hp, ih, List.filter_cons_of_neg (by simpa using hp)]

/-! ## Substring lemmas -/

theorem listStartsWith_iff (pat : List Char) :
    ∀ s : List Char, listStartsWith pat s = true ↔ ∃ r, s = pat ++ r := by
  induction pat with
  | nil =>
    intro s
    simp [listStartsWith]
  | cons p ps ih =>
    intro s
    cases s with
    | nil =>
      simp only [listStartsWith]
      constructor
      · intro h
        exact absurd h (by simp)
      · rintro ⟨r, hr⟩
        exact absurd hr (by simp)
    | cons c cs =>
      simp only [listStartsWith, Bool.and_eq_true, decide_eq_true_eq, ih cs]
      constructor
      · rintro ⟨rfl, r, rfl⟩
        exact ⟨r, rfl⟩
      · rintro ⟨r, hr⟩
        rw [List.cons_append] at hr
        obtain ⟨rfl, rfl⟩ : p = c ∧ cs = ps ++ r := by
          constructor
          · exact (List.cons.injEq .. ▸ hr).1.symm
          · exact (List.cons.injEq .. ▸ hr).2
        exact ⟨rfl, r, rfl⟩

theorem containsSub_go_iff (pat : List Char) :
    ∀ s : List Char, containsSub.go pat s = true ↔ ∃ l r, s = l ++ pat ++ r := by
  intro s
  induction s with
  | nil =>
    simp only [containsSub.go, List.isEmpty_iff]
    constructor
    · rintro rfl
      exact ⟨[], [], rfl⟩
    · rintro ⟨l, r, hr⟩
      rcases List.append_eq_nil.mp (List.append_eq_nil.mp hr.symm).1 with ⟨-, h2⟩
      exact h2
  | cons c cs ih =>
    simp only [containsSub.go, Bool.or_eq_true, listStartsWith_iff, ih]
    constructor
    · rintro (⟨r, hr⟩ | ⟨l, r, hr⟩)
      · exact ⟨[], r, by simpa using hr⟩
      · exact ⟨c :: l, r, by simp [hr]⟩
    · rintro ⟨l, r, hr⟩
      cases l with
      | nil => exact Or.inl ⟨r, by simpa using hr⟩
      | cons x xs =>
        right
        refine ⟨xs, r, ?_⟩
        have := (List.cons.injEq .. ▸ (by simpa using hr : c :: cs = x :: (xs ++ pat ++ r))).2
        exact this

theorem containsSub_iff (s pat : String) :
    containsSub s pat = true ↔ ∃ l r, s.data = l ++ pat.data ++ r :=
  containsSub_go_iff pat.data s.data

theorem containsSub_empty (s : String) : containsSub s "" = true := by
  rw [containsSub_iff]
  exact ⟨[], s.data, by simp⟩

/-! ## Decimal representation lemmas -/

theorem valRev_digitsRev : ∀ fuel n : Nat, n ≤ fuel → valRev (digitsRev fuel n) = n := by
  intro fuel
  induction fuel with
  | zero =>
    intro n h
    interval_cases n
    rfl
  | succ fuel ih =>
    intro n h
    by_cases hn : n = 0
    · simp [digitsRev, hn, valRev]
    · rw [digitsRev, if_neg hn, valRev]
      have hdiv : n / 10 ≤ fuel := by
        have : n / 10 < n := Nat.div_lt_self (by omega) (by omega)
        omega
      rw [ih _ hdiv, Nat.mod_add_div]

theorem digitsRev_lt10 : ∀ fuel n : Nat, ∀ d ∈ digitsRev fuel n, d < 10 := by
  intro fuel
  induction fuel with
  | zero => intro n d hd; simp [digitsRev] at hd
  | succ fuel ih =>
    intro n d hd
    by_cases hn : n = 0
    · simp [digitsRev, hn] at hd
    · rw [digitsRev, if_neg hn] at hd
      rcases List.mem_cons.mp hd with rfl | hd
      · exact Nat.mod_lt _ (by omega)
      · exact ih _ _ hd

theorem digitChar_inj_lt10 {a b : Nat} (ha : a < 10) (hb : b < 10)
    (h : Nat.digitChar a = Nat.digitChar b) : a = b := by
  have key : ∀ x y : Fin 10, Nat.digitChar x.val = Nat.digitChar y.val → x = y := by decide
  exact congrArg Fin.val (key ⟨a, ha⟩ ⟨b, hb⟩ h)

theorem digitChar_ne_underscore {a : Nat} (ha : a < 10) : ¬ Nat.digitChar a = '_' := by
  have key : ∀ x : Fin 10, ¬ Nat.digitChar x.val = '_' := by decide
  exact key ⟨a, ha⟩

theorem map_digitChar_inj : ∀ as bs : List Nat, (∀ d ∈ as, d < 10) → (∀ d ∈ bs, d < 10) →
    as.map Nat.digitChar = bs.map Nat.digitChar → as = bs := by
  intro as
  induction as with
  | nil =>
    intro bs _ _ h
    cases bs with
    | nil => rfl
    | cons b bs => simp at h
  | cons a as ih =>
    intro bs ha hb h
    cases bs with
    | nil => simp at h
    | cons b bs =>
      simp only [List.map_cons, List.cons.injEq] at h
      have h1 : a = b := digitChar_inj_lt10 (ha a (by simp)) (hb b (by simp)) h.1
      have h2 : as = bs := ih bs (fun d hd => ha d (by simp [hd]))
        (fun d hd => hb d (by simp [hd])) h.2
      rw [h1, h2]

theorem jsNumToString_inj {m n : Nat} (h : jsNumToString m = jsNumToString n) : m = n := by
  unfold jsNumToString at h
  by_cases hm : m = 0 <;> by_cases hn : n = 0
  · omega
  · exfalso
    rw [if_pos hm, if_neg hn] at h
    have hdata : ('0' : Char) :: [] = ((digitsRev n n).map Nat.digitChar).reverse := by
      have := congrArg String.data h
      simpa using this
    have : (digitsRev n n).map Nat.digitChar = ['0'] := by
      have := congrArg List.reverse hdata
      simpa using this.symm
    have hd : digitsRev n n = [0] := by
      have h0 : ([0] : List Nat).map Nat.digitChar = ['0'] := by decide
      exact map_digitChar_inj _ _ (digitsRev_lt10 n n) (by simp) (this.trans h0.symm)
    have := valRev_digitsRev n n le_rfl
    rw [hd] at this
    simp [valRev] at this
    omega
  · exfalso
    rw [if_neg hm, if_pos hn] at h
    have hdata : ((digitsRev m m).map Nat.digitChar).reverse = ('0' : Char) :: [] := by
      have := congrArg String.data h
      simpa using this
    have : (digitsRev m m).map Nat.digitChar = ['0'] := by
      have := congrArg List.reverse hdata
      simpa using this
    have hd : digitsRev m m = [0] := by
      have h0 : ([0] : List Nat).map Nat.digitChar = ['0'] := by decide
      exact map_digitChar_inj _ _ (digitsRev_lt10 m m) (by simp) (this.trans h0.symm)
    have := valRev_digitsRev m m le_rfl
    rw [hd] at this
    simp [valRev] at this
    omega
  · rw [if_neg hm, if_neg hn] at h
    have hdata := congrArg String.data h
    simp only at hdata
    have hmap : (digitsRev m m).map Nat.digitChar = (digitsRev n n).map Nat.digitChar := by
      have := congrArg List.reverse hdata
      simpa using this
    have hd := map_digitChar_inj _ _ (digitsRev_lt10 m m) (digitsRev_lt10 n n) hmap
    have h1 := valRev_digitsRev m m le_rfl
    have h2 := valRev_digitsRev n n le_rfl
    rw [hd] at h1
    omega

theorem jsNumToString_no_underscore (n : Nat) : ¬ '_' ∈ (jsNumToString n).data := by
  unfold jsNumToString
  by_cases hn : n = 0
  · rw [if_pos hn]
    decide
  · rw [if_neg hn]
    intro hmem
    simp only [List.mem_reverse, List.mem_map] at hmem
    rcases hmem with ⟨d, hd, hchar⟩
    exact digitChar_ne_underscore (digitsRev_lt10 n n d hd) hchar

theorem append_sep_inj : ∀ a₁ a₂ b₁ b₂ : List Char, ¬ '_' ∈ a₁ → ¬ '_' ∈ a₂ →
    a₁ ++ '_' :: b₁ = a₂ ++ '_' :: b₂ → a₁ = a₂ ∧ b₁ = b₂ := by
  intro a₁
  induction a₁ with
  | nil =>
    intro a₂ b₁ b₂ _ h₂ h
    cases a₂ with
    | nil => simpa using h
    | cons c cs =>
      exfalso
      have : '_' = c := by simpa using congrArg (List.headI) h
      exact h₂ (by simp [← this])
  | cons c cs ih =>
    intro a₂ b₁ b₂ h₁ h₂ h
    cases a₂ with
    | nil =>
      exfalso
      have : c = '_' := by simpa using congrArg (List.headI) h
      exact h₁ (by simp [this])
    | cons d ds =>
      simp only [List.cons_append, List.cons.injEq] at h
      have hrec := ih ds b₁ b₂ (fun hm => h₁ (by simp [hm])) (fun hm => h₂ (by simp [hm])) h.2
      exact ⟨by rw [h.1, hrec.1], hrec.2⟩

theorem generateUniqueId_inj {n₁ n₂ : Nat} {r₁ r₂ : String}
    (h : generateUniqueId n₁ r₁ = generateUniqueId n₂ r₂) : n₁ = n₂ ∧ r₁ = r₂ := by
  unfold generateUniqueId at h
  have hdata := congrArg String.data h
  simp only [String.data_append, List.append_assoc] at hdata
  have hdata' : (jsNumToString n₁).data ++ '_' :: r₁.data =
      (jsNumToString n₂).data ++ '_' :: r₂.data := by
    simpa using hdata
  have := append_sep_inj _ _ _ _ (jsNumToString_no_underscore n₁)
    (jsNumToString_no_underscore n₂) hdata'
  constructor
  · exact jsNumToString_inj (by
      apply String.ext
      exact this.1)
  · apply String.ext
    exact this.2

/-! ## Claim C1: confirm validation -/

theorem validateInput_eq_false_iff (t d : String) :
    validateInput t d = false ↔
      (jsTrim t = "" ∨ t.length > 50 ∨ d.length > 200) := by
  unfold validateInput
  split
  · simp_all
  · split
    · simp_all
    · split <;> simp_all

theorem confirm_ok_findPin {s : List Pin} {pid t d : String} {now : Nat}
    {p0 : Pin} {s' : List Pin} (hfind : findPin s pid = some p0)
    (h : confirm s pid t d now = .ok s') :
    findPin s' pid =
      some { p0 with title := t, description := d, updatedAt := some now } := by
  unfold confirm at h
  split at h
  · have hs' : s' = savePin s (some pid) t d now := by
      cases h
      rfl
    rw [hs', savePin_found t d now hfind, ← findPin_id hfind]
    exact findPin_storeSet_self s _
  · cases h

/-- C1 counterexample: `confirm` on a pin present in the store with the
whitespace-only title `" "` fails with `ValidationError` even though the
title is non-empty, is at most 50 characters, and the description is at
most 200 characters — `validateInput` tests `!data.title.trim()`, so the
claimed "fails iff title empty or a length bound exceeded" is false. -/
theorem confirm_whitespace_title_counterexample :
    findPin [c1Pin] "p1" = some c1Pin
    ∧ confirm [c1Pin] "p1" " " "d" 7 = .error .validationError
    ∧ ¬ (" " : String) = ""
    ∧ (" " : String).length ≤ 50
    ∧ ("d" : String).length ≤ 200 :=
  ⟨rfl, rfl, by decide, by decide, by decide⟩

/-- C1 (amended): for a pin present in the store, `confirm` fails with
`ValidationError` iff the title is empty after trimming whitespace, the
title exceeds 50 characters, or the description exceeds 200 characters;
on success it sets the pin's title and description to the given values
and sets `updatedAt`, and a repeated confirmation of the same id
overwrites the prior values. -/
theorem confirm_validation (s : List Pin) (pid title description : String)
    (now : Nat) (p0 : Pin) (hfind : findPin s pid = some p0) :
    ((∃ e, confirm s pid title description now = .error e) ↔
      (jsTrim title = "" ∨ title.length > 50 ∨ description.length > 200))
    ∧ (∀ s', confirm s pid title description now = .ok s' →
        findPin s' pid =
          some { p0 with title := title, description := description,
                         updatedAt := some now })
    ∧ (∀ s' t₂ d₂ n₂ s'', confirm s pid title description now = .ok s' →
        confirm s' pid t₂ d₂ n₂ = .ok s'' →
        findPin s'' pid =
          some { p0 with title := t₂, description := d₂,
                         updatedAt := some n₂ }) := by
  refine ⟨?_, ?_, ?_⟩
  · constructor
    · rintro ⟨e, he⟩
      unfold confirm at he
      split at he
      · cases he
      · rename_i hv
        exact (validateInput_eq_false_iff _ _).mp (by simpa using hv)
    · intro hbad
      refine ⟨.validationError, ?_⟩
      unfold confirm
      rw [if_neg]
      simpa using (validateInput_eq_false_iff _ _).mpr hbad
  · intro s' h
    exact confirm_ok_findPin hfind h
  · intro s' t₂ d₂ n₂ s'' h h₂
    have h1 := confirm_ok_findPin hfind h
    exact @confirm_ok_findPin s' pid t₂ d₂ n₂
      { p0 with title := title, description := description, updatedAt := some now }
      s'' h1 h₂

/-- C1 witness: the amended theorem applied to a concrete store. -/
theorem confirm_validation_witness :
    findPin [c1Pin] "p1" = some c1Pin
    ∧ findPin (savePin [c1Pin] (some "p1") "New" "nd" 9) "p1" =
        some { c1Pin with title := "New", description := "nd", updatedAt := some 9 } :=
  ⟨rfl, (confirm_validation [c1Pin] "p1" "New" "nd" 9 c1Pin rfl).2.1 _ rfl⟩

/-! ## Claim C2: persistence schedule -/

/-- C2 counterexample: a draft pin (empty title) left in the store — the
user declined the dialog of the `hideCommentModal → deletePin` path, so
the draft survived — IS included in the payload persisted by the next
mutation, because `savePinsToStorage` serializes every entry of
`this.pins` with no title filter.  Deleting the confirmed pin `"c"`
persists exactly the draft record, whose title is empty. -/
theorem draft_persisted_counterexample :
    c2Draft.title = ""
    ∧ (deletePinFull [c2Draft, c2Confirmed] "c" true).2.2 =
        some [storedOfPin c2Draft]
    ∧ (storedOfPin c2Draft).title = "" :=
  ⟨rfl, rfl, rfl⟩

/-- C2 (amended): persistence runs synchronously after every mutation
that changes confirmed state (confirm/save, delete, clear) and never
after draft creation alone; the persisted payload, however, is the whole
pin collection — `savePinsToStorage` does not filter by title, so a
draft still present at persist time is included. -/
theorem persistence_schedule (s : List Pin) (pid : String) (p0 : Pin)
    (hfind : findPin s pid = some p0) :
    (∀ t d now, (savePinFull s (some pid) t d now).2 =
        some (savePinsToStorage (savePinFull s (some pid) t d now).1))
    ∧ (deletePinFull s pid true).2.2 =
        some (savePinsToStorage (deletePinFull s pid true).2.1)
    ∧ (clearAllPinsFull s true).2 =
        some (savePinsToStorage (clearAllPinsFull s true).1)
    ∧ (∀ pid2 lat lng now, (addPinDraftFull s pid2 lat lng now).2 = none)
    ∧ (∀ p ∈ s, storedOfPin p ∈ savePinsToStorage s) := by
  refine ⟨?_, ?_, ?_, ?_, ?_⟩
  · intro t d now
    simp [savePinFull, hfind]
  · simp [deletePinFull, hfind]
  · have hne : ¬ s.isEmpty = true := by
      have := mem_of_findPin hfind
      cases s with
      | nil => simp at this
      | cons a l => simp
    simp [clearAllPinsFull, hne]
  · intro pid2 lat lng now
    rfl
  · intro p hp
    exact List.mem_map_of_mem _ hp

/-- C2 witness: the amended theorem applied to a concrete store holding a
draft and a confirmed pin. -/
theorem persistence_schedule_witness :
    findPin [c2Draft, c2Confirmed] "c" = some c2Confirmed
    ∧ (deletePinFull [c2Draft, c2Confirmed] "c" true).2.2 =
        some (savePinsToStorage (deletePinFull [c2Draft, c2Confirmed] "c" true).2.1) :=
  ⟨rfl, (persistence_schedule [c2Draft, c2Confirmed] "c" c2Confirmed rfl).2.1⟩

/-! ## Claim C3: displayed count after mutations -/

/-- C3 (code bug): after creating a draft at (35.0, 139.0) and confirming
it with title `"Cafe"`, the store holds one confirmed pin titled `"Cafe"`
— but the displayed count is still 0, because `savePin`
(script.js:141-162) calls `savePinsToStorage`, `updateSidebar`,
`hideCommentModal` and `showNotification` and never `updatePinCount`,
while `addPin`'s draft branch does not call it either.  The spec's
"recomputes the visible count on every mutation" and the scenario
`count() == 1` fail at this input. -/
theorem count_not_refreshed_after_confirm :
    pinCount (appConfirm (appAddDraft ⟨[], 0⟩ "p1" 35.0 139.0 10)
        "p1" "Cafe" "" 11).pins = 1
    ∧ (appConfirm (appAddDraft ⟨[], 0⟩ "p1" 35.0 139.0 10)
        "p1" "Cafe" "" 11).shownCount = 0
    ∧ (listPins (appConfirm (appAddDraft ⟨[], 0⟩ "p1" 35.0 139.0 10)
        "p1" "Cafe" "" 11).pins).map Pin.title = ["Cafe"] :=
  ⟨rfl, rfl, rfl⟩

/-! ## Claim C4: sidebar ordering -/

/-- C4 counterexample: three confirmed pins sharing the creation
timestamp 5, inserted in the order `"b"`, `"a"`, `"c"`, are listed in
insertion order `["b", "a", "c"]` — neither ascending nor descending in
the identifier, so ties are NOT broken by identifier: the comparator at
script.js:251 returns 0 on equal timestamps and the stable sort keeps
insertion order. -/
theorem list_tiebreak_counterexample :
    (listPins [c4PinB, c4PinA, c4PinC]).map Pin.createdAt = [5, 5, 5]
    ∧ (listPins [c4PinB, c4PinA, c4PinC]).map Pin.id = ["b", "a", "c"]
    ∧ ¬ (listPins [c4PinB, c4PinA, c4PinC]).map Pin.id = ["a", "b", "c"]
    ∧ ¬ (listPins [c4PinB, c4PinA, c4PinC]).map Pin.id = ["c", "b", "a"] :=
  ⟨rfl, rfl, by decide, by decide⟩

/-- C4 (amended): `list()` returns exactly the confirmed pins (non-empty
title), ordered by creation timestamp descending; ties between equal
timestamps keep the store's insertion order (the sort is stable), not
identifier order. -/
theorem listPins_order (s : List Pin) :
    (listPins s).Perm (s.filter isConfirmed)
    ∧ (listPins s).Pairwise (fun a b => b.createdAt ≤ a.createdAt)
    ∧ (∀ p, p ∈ listPins s ↔ p ∈ s ∧ isConfirmed p = true)
    ∧ (∀ t : Nat, (listPins s).filter (fun q => q.createdAt = t) =
        (s.filter isConfirmed).filter (fun q => q.createdAt = t)) := by
  refine ⟨sortPinsDesc_perm _, sortPinsDesc_pairwise _, ?_,
    fun t => sortPinsDesc_stable _ t⟩
  intro p
  rw [listPins, (sortPinsDesc_perm _).mem_iff, List.mem_filter]

/-! ## Claim C5: delete -/

/-- C5: `delete(id)` on an absent id is the `NotFoundError` no-op leaving
the store unchanged (and persisting nothing); on a present id — after the
user confirms the dialog, the gate of spec §5 — it removes the pin
unconditionally, whatever its title. -/
theorem deletePin_spec (s : List Pin) (pid : String) (userOk : Bool)
    (huser : userOk = true) :
    (findPin s pid = none →
      deletePinFull s pid userOk = (.notFound, s, none))
    ∧ (∀ p0, findPin s pid = some p0 →
        deletePinFull s pid userOk =
          (.deleted, removePin s pid, some (savePinsToStorage (removePin s pid)))
        ∧ ¬ p0 ∈ removePin s pid) := by
  subst huser
  constructor
  · intro h
    simp [deletePinFull, h]
  · intro p0 h
    refine ⟨by simp [deletePinFull, h], ?_⟩
    intro hmem
    have hpred := (List.mem_filter.mp hmem).2
    have hid := findPin_id h
    simp [removePin, hid] at hpred

/-- C5 witness: deleting the only pin of a concrete store. -/
theorem deletePin_spec_witness :
    findPin [c5Pin] "a" = some c5Pin
    ∧ deletePinFull [c5Pin] "a" true =
        (.deleted, removePin [c5Pin] "a",
          some (savePinsToStorage (removePin [c5Pin] "a")))
    ∧ ¬ c5Pin ∈ removePin [c5Pin] "a" :=
  ⟨rfl, ((deletePin_spec [c5Pin] "a" true rfl).2 c5Pin rfl).1,
    ((deletePin_spec [c5Pin] "a" true rfl).2 c5Pin rfl).2⟩

/-! ## Claim C6: persist/restore round-trip -/

theorem loadLoop_roundtrip : ∀ (pins acc : List Pin),
    (∀ p ∈ pins, acc.any (fun q => q.id = p.id) = false) →
    (pins.map Pin.id).Nodup →
    loadLoop acc ((savePinsToStorage pins).map some) = (acc ++ pins, .okLoaded) := by
  intro pins
  induction pins with
  | nil =>
    intro acc _ _
    simp [savePinsToStorage, loadLoop]
  | cons p rest ih =>
    intro acc hfresh hnodup
    have hstep : loadLoop acc ((savePinsToStorage (p :: rest)).map some) =
        loadLoop (storeSet acc p) ((savePinsToStorage rest).map some) := rfl
    have hset : storeSet acc p = acc ++ [p] := by
      unfold storeSet
      rw [if_neg]
      rw [hfresh p (by simp)]
      simp
    rw [hstep, hset]
    have hnodup' : (rest.map Pin.id).Nodup := (List.nodup_cons.mp hnodup).2
    have hfresh' : ∀ q ∈ rest, (acc ++ [p]).any (fun x => x.id = q.id) = false := by
      intro q hq
      rw [List.any_append]
      have h1 : acc.any (fun x => x.id = q.id) = false := hfresh q (by simp [hq])
      have h2 : p.id ≠ q.id := by
        intro hc
        exact (List.nodup_cons.mp hnodup).1 (hc ▸ List.mem_map_of_mem Pin.id hq)
      simp [h1, h2]
    rw [ih (acc ++ [p]) hfresh' hnodup']
    simp

/-- C6: persisting the pin list and restoring it into an empty store
yields the same list — in particular equal element-wise by id, lat, lng,
title and description — provided ids are unique (the store invariant a JS
`Map` enforces). -/
theorem persist_restore_roundtrip (pins : List Pin)
    (hnodup : (pins.map Pin.id).Nodup) :
    loadPinsFromStorage [] (.parsed ((savePinsToStorage pins).map some)) =
      (pins, .okLoaded)
    ∧ (loadPinsFromStorage []
        (.parsed ((savePinsToStorage pins).map some))).1.map
          (fun p => (p.id, p.lat, p.lng, p.title, p.description)) =
      pins.map (fun p => (p.id, p.lat, p.lng, p.title, p.description)) := by
  have h1 : loadPinsFromStorage [] (.parsed ((savePinsToStorage pins).map some)) =
      (pins, .okLoaded) := by
    have h := loadLoop_roundtrip pins [] (by simp) hnodup
    simpa [loadPinsFromStorage] using h
  exact ⟨h1, by rw [h1]⟩

/-- C6 witness: the round-trip theorem applied to a concrete two-pin
list. -/
theorem persist_restore_roundtrip_witness :
    ([c6Pin1, c6Pin2].map Pin.id).Nodup
    ∧ loadPinsFromStorage []
        (.parsed ((savePinsToStorage [c6Pin1, c6Pin2]).map some)) =
      ([c6Pin1, c6Pin2], .okLoaded) :=
  ⟨by decide, (persist_restore_roundtrip [c6Pin1, c6Pin2] (by decide)).1⟩

/-! ## Claim C7: restore error handling -/

/-- C7 counterexample: a persisted array holding one well-formed record
followed by a malformed element (`null`, whose field access throws inside
`addPin`) is malformed input, yet after the caught exception the pin set
holds the already-loaded pin — it does not degrade to empty. -/
theorem load_partial_counterexample :
    loadPinsFromStorage [] (.parsed [some c7Record, none]) =
      ([pinOfStored c7Record], .storageError)
    ∧ ¬ ([pinOfStored c7Record] : List Pin) = ([] : List Pin) :=
  ⟨rfl, by simp⟩

/-- C7 (amended): `restore()` leaves the (empty) store untouched when no
prior data exists; every malformed input is caught — the application
never crashes — and reported as a `StorageError`; but the pin set
degrades to the pins loaded before the first malformed element (empty
only when the data is unparseable or the malformation comes first), not
necessarily to empty. -/
theorem loadPins_error_handling :
    (∀ s, loadPinsFromStorage s .empty = (s, .okEmpty))
    ∧ (∀ s, loadPinsFromStorage s .unparseable = (s, .storageError))
    ∧ (∀ (s : List Pin) (good : List StoredPin)
          (rest : List (Option StoredPin)),
        loadLoop s (good.map some ++ none :: rest) =
        (good.foldl (fun acc d => storeSet acc (pinOfStored d)) s,
          .storageError)) := by
  refine ⟨fun s => rfl, fun s => rfl, ?_⟩
  intro s good rest
  induction good generalizing s with
  | nil => rfl
  | cons d ds ih => exact ih (storeSet s (pinOfStored d))

/-! ## Claim C8: search -/

/-- C8 counterexample: a confirmed pin whose description contains
`"xyz"` only after its 50th character is NOT returned by
`search("xyz")`: `searchPins` matches against the rendered row text,
where the description has been truncated to `substring(0, 50) + '...'`
(script.js:256), so the match is missed even though the real description
contains the term. -/
theorem search_truncated_description_counterexample :
    containsSub c8Pin.description "xyz" = true
    ∧ containsSub (jsToLower c8Pin.description) (jsTrim (jsToLower "xyz")) = true
    ∧ isConfirmed c8Pin = true
    ∧ (listPins [c8Pin]).map Pin.id = ["s"]
    ∧ searchPins [c8Pin] "xyz" = [] :=
  ⟨rfl, rfl, rfl, rfl, rfl⟩

/-- C8 (amended): `search(term)` returns exactly the confirmed pins
whose lowercased title or lowercased RENDERED description — the
description truncated to its first 50 characters plus `'...'` when
longer, or the placeholder `'説明なし'` when empty — contains the
lowercased, trimmed term as a substring; the empty term returns all
confirmed pins. -/
theorem searchPins_spec (s : List Pin) (term : String) :
    (∀ p, p ∈ searchPins s term ↔
      p ∈ listPins s ∧
        ((∃ l r, (jsToLower p.title).data =
            l ++ (jsTrim (jsToLower term)).data ++ r) ∨
         (∃ l r, (jsToLower (renderDesc p)).data =
            l ++ (jsTrim (jsToLower term)).data ++ r)))
    ∧ searchPins s "" = listPins s := by
  constructor
  · intro p
    rw [searchPins, List.mem_filter]
    have hrow : rowMatches term p = true ↔
        (containsSub (jsToLower p.title) (jsTrim (jsToLower term)) = true ∨
         containsSub (jsToLower (renderDesc p)) (jsTrim (jsToLower term)) = true) := by
      simp [rowMatches]
    rw [hrow, containsSub_iff, containsSub_iff]
  · rw [searchPins]
    apply List.filter_eq_self.mpr
    intro p hp
    have ht : jsTrim (jsToLower "") = "" := rfl
    simp [rowMatches, ht, containsSub_empty]

/-! ## Claim C9: identifier uniqueness -/

/-- C9 counterexample: two distinct invocations of `generateUniqueId`
that observe the same `Date.now()` millisecond and the same
`Math.random()` suffix — possible under rapid invocation, since neither
JS API precludes repeats — return the SAME id, so the generated ids are
not always distinct. -/
theorem generateUniqueId_collision :
    (([(1700000000000, "abc123def"), (1700000000000, "abc123def")] :
        List (Nat × String)).map (fun c => generateUniqueId c.1 c.2)) =
      ["pin_1700000000000_abc123def", "pin_1700000000000_abc123def"]
    ∧ ¬ (([(1700000000000, "abc123def"), (1700000000000, "abc123def")] :
        List (Nat × String)).map (fun c => generateUniqueId c.1 c.2)).Nodup :=
  ⟨rfl, by decide⟩

/-- C9 (amended): ids generated from pairwise-distinct
`(Date.now(), random-suffix)` observations are pairwise distinct —
`'pin_' + now + '_' + rand` is injective in the pair, since the decimal
timestamp contains no underscore; collisions require both the millisecond
timestamp and the random suffix to repeat. -/
theorem generateUniqueId_unique (calls : List (Nat × String))
    (hd : calls.Nodup) :
    (calls.map (fun c => generateUniqueId c.1 c.2)).Nodup := by
  refine List.Nodup.map_on ?_ hd
  intro x _ y _ h
  have hinj := generateUniqueId_inj h
  cases x
  cases y
  simp only at hinj
  simp [hinj.1, hinj.2]

/-- C9 witness: three distinct observation pairs give three distinct
ids. -/
theorem generateUniqueId_unique_witness :
    ([(1, "a"), (1, "b"), (2, "a")] : List (Nat × String)).Nodup
    ∧ (([(1, "a"), (1, "b"), (2, "a")] : List (Nat × String)).map
        (fun c => generateUniqueId c.1 c.2)).Nodup :=
  ⟨by decide, generateUniqueId_unique _ (by decide)⟩

/-! ## Claim C10: geometry is immutable -/

/-- C10: the edit/confirm path (`savePin`) rewrites the store so that the
pin named by `currentPinId` gets the new title, description and
`updatedAt` while keeping its id, lat, lng and createdAt, and every other
pin is untouched; consequently the (id, lat, lng, createdAt) projection
of the store is invariant.  (`editPin`, script.js:197-205, only reads the
pin to pre-fill the form and performs no store write.) -/
theorem savePin_geometry_frame (s : List Pin) (pid : String)
    (hnodup : (s.map Pin.id).Nodup) (t d : String) (now : Nat) (p0 : Pin)
    (hfind : findPin s pid = some p0) :
    savePin s (some pid) t d now =
      s.map (fun q => if q.id = pid then
        { q with title := t, description := d, updatedAt := some now } else q)
    ∧ (savePin s (some pid) t d now).map
        (fun q => (q.id, q.lat, q.lng, q.createdAt)) =
      s.map (fun q => (q.id, q.lat, q.lng, q.createdAt)) := by
  have hid : p0.id = pid := findPin_id hfind
  have hmem : p0 ∈ s := mem_of_findPin hfind
  subst hid
  have h1 : savePin s (some p0.id) t d now =
      s.map (fun q => if q.id = p0.id then
        { q with title := t, description := d, updatedAt := some now } else q) := by
    rw [savePin_found t d now hfind,
      storeSet_of_mem (p := { p0 with title := t, description := d, updatedAt := some now }) hmem rfl]
    apply List.map_congr_left
    intro q hq
    by_cases hqid : q.id = p0.id
    · have hq0 : q = p0 := List.inj_on_of_nodup_map hnodup hq hmem hqid
      subst hq0
      simp
    · simp [hqid]
  refine ⟨h1, ?_⟩
  rw [h1, List.map_map]
  apply List.map_congr_left
  intro q _
  by_cases hqid : q.id = p0.id
  · simp [hqid]
  · simp [hqid]

/-- C10 witness: confirming new text on a concrete one-pin store leaves
id, lat, lng and createdAt as they were. -/
theorem savePin_geometry_frame_witness :
    ([c10Pin].map Pin.id).Nodup
    ∧ findPin [c10Pin] "f" = some c10Pin
    ∧ (savePin [c10Pin] (some "f") "T2" "D2" 9).map
        (fun q => (q.id, q.lat, q.lng, q.createdAt)) =
      [c10Pin].map (fun q => (q.id, q.lat, q.lng, q.createdAt)) :=
  ⟨by decide, rfl,
    (savePin_geometry_frame [c10Pin] "f" (by decide) "T2" "D2" 9 c10Pin rfl).2⟩

end MapApp
